import Mathlib

/-!
Verification of the imagehash-go repository core: the 2D DCT-II engine
(general path `DCT1D`/`DCT2D` from dct.go, fast fixed-size Lee-butterfly path
`forwardDCT4`..`forwardDCT64`, `DCT2DFast32`/`DCT2DFast64` from static_dct.go),
the fingerprint assemblers, the hex codec (`ToString`/`HexToHash`), the
Hamming `Distance`, and the `median` helpers from imagehash.go.

Modelling conventions:
* Go `float64` values are modelled by `ℝ`; `math.Cos` by `Real.cos`;
  `math.Pi` by `Real.pi`.  Floating-point literals that the Go source writes
  out (1.9615705608064609, 1.6629392246050907, 1.1111404660392046,
  0.3901806440322566, 1.8477590650225735, 0.7653668647301797,
  1.4142135623730951) are the float64 printings of
  2cos(π/16), 2cos(3π/16), 2cos(5π/16), 2cos(7π/16), 2cos(π/8), 2cos(3π/8)
  and 2cos(π/4) = √2; they are modelled by those exact real values, in the
  same way that the `dct64`/`dct32`/`dct16` tables are the values the `init`
  function computes with `math.Cos`.
* Go slices of float64 are modelled as functions `ℕ → ℝ`; a routine that
  works on a slice of length n only reads and writes indices < n, and the
  in-place routines of static_dct.go leave indices ≥ n unchanged.
* Go `[]bool` is `List Bool`, Go strings are `List Char`, Go byte-valued
  pixels are `ℕ`.  Fallible functions return `Option`/an explicit result type.
-/

open Real

namespace ImageHashGo

/-- Embedding of `DCT1D` (dct.go lines 42-55): for a length-n input the k-th
output is the running sum, over i < n, of `input[i] * cos(factor*(i+0.5)*k)`
with `factor = π/n`.  The accumulation loop is modelled by a `foldl`. -/
noncomputable def DCT1D (n : ℕ) (x : ℕ → ℝ) : ℕ → ℝ := fun k =>
  (List.range n).foldl (fun s i => s + x i * Real.cos (π / n * (i + 1 / 2) * k)) 0

lemma foldl_add_shift (f : ℕ → ℝ) :
    ∀ (l : List ℕ) (a : ℝ),
      l.foldl (fun s i => s + f i) a = a + l.foldl (fun s i => s + f i) 0
  | [], a => by simp
  | i :: t, a => by
    rw [List.foldl_cons, List.foldl_cons, foldl_add_shift f t (a + f i),
      foldl_add_shift f t (0 + f i)]
    ring

lemma foldl_range_add (f : ℕ → ℝ) (n : ℕ) :
    (List.range n).foldl (fun s i => s + f i) 0 = ∑ i ∈ Finset.range n, f i := by
  induction n with
  | zero => simp
  | succ m ih =>
    rw [List.range_succ, List.foldl_append, foldl_add_shift, ih,
      Finset.sum_range_succ]
    simp

lemma DCT1D_eq_sum (n : ℕ) (x : ℕ → ℝ) (k : ℕ) :
    DCT1D n x k = ∑ i ∈ Finset.range n, x i * Real.cos (π / n * (i + 1 / 2) * k) :=
  foldl_range_add _ n

lemma DCT1D_congr (n : ℕ) (x y : ℕ → ℝ) (h : ∀ i, i < n → x i = y i) (k : ℕ) :
    DCT1D n x k = DCT1D n y k := by
  rw [DCT1D_eq_sum, DCT1D_eq_sum]
  exact Finset.sum_congr rfl fun i hi => by rw [h i (Finset.mem_range.mp hi)]

/-- Even half of the Lee radix-2 butterfly: the even-indexed outputs of a
size-2M DCT are the outputs of the size-M DCT of `x[i] + x[2M-1-i]`. -/
lemma lee_even (M : ℕ) (x : ℕ → ℝ) (k : ℕ) :
    DCT1D (2 * M) x (2 * k) = DCT1D M (fun i => x i + x (2 * M - 1 - i)) k := by
  rw [DCT1D_eq_sum, DCT1D_eq_sum]
  set f : ℕ → ℝ :=
    fun i => x i * Real.cos (π / (↑(2 * M)) * ((i : ℝ) + 1 / 2) * (↑(2 * k))) with hf
  have h1 : ∑ i ∈ Finset.range (2 * M), f i
      = ∑ i ∈ Finset.range M, f i + ∑ i ∈ Finset.range M, f (M + i) := by
    rw [two_mul, Finset.sum_range_add]
  have h2 : ∑ i ∈ Finset.range M, f (M + i)
      = ∑ i ∈ Finset.range M, f (M + (M - 1 - i)) :=
    (Finset.sum_range_reflect (fun i => f (M + i)) M).symm
  rw [h1, h2, ← Finset.sum_add_distrib]
  refine Finset.sum_congr rfl fun i hi => ?_
  have hiM : i < M := Finset.mem_range.mp hi
  have hidx : M + (M - 1 - i) = 2 * M - 1 - i := by omega
  rw [hidx]
  simp only [hf]
  have hcast : ((2 * M - 1 - i : ℕ) : ℝ) = 2 * (M : ℝ) - 1 - (i : ℝ) := by
    have h' : 2 * M - 1 - i = 2 * M - (1 + i) := by omega
    rw [h', Nat.cast_sub (by omega)]
    push_cast
    ring
  have hMne : (M : ℝ) ≠ 0 := Nat.cast_ne_zero.mpr (by omega)
  have e1 : π / (↑(2 * M)) * ((i : ℝ) + 1 / 2) * (↑(2 * k))
      = π / (M : ℝ) * ((i : ℝ) + 1 / 2) * (k : ℝ) := by
    push_cast
    field_simp
    ring
  have e2 : π / (↑(2 * M)) * (((2 * M - 1 - i : ℕ) : ℝ) + 1 / 2) * (↑(2 * k))
      = (k : ℝ) * (2 * π) - π / (M : ℝ) * ((i : ℝ) + 1 / 2) * (k : ℝ) := by
    rw [hcast]
    push_cast
    field_simp
    ring
  rw [e1, e2, Real.cos_sub, Real.cos_nat_mul_two_pi]
  have hs : Real.sin ((k : ℝ) * (2 * π)) = 0 := by
    rw [show (k : ℝ) * (2 * π) = ((2 * k : ℕ) : ℝ) * π by push_cast; ring]
    exact Real.sin_nat_mul_pi (2 * k)
  rw [hs]
  ring

/-- A size-M DCT (in the unnormalized convention of the source) evaluated at
output index M is zero: every cosine is taken at an odd multiple of π/2. -/
lemma DCT1D_apply_self (M : ℕ) (y : ℕ → ℝ) : DCT1D M y M = 0 := by
  rw [DCT1D_eq_sum]
  refine Finset.sum_eq_zero fun i hi => ?_
  have hiM : i < M := Finset.mem_range.mp hi
  have hMne : (M : ℝ) ≠ 0 := Nat.cast_ne_zero.mpr (by omega)
  have e : π / (M : ℝ) * ((i : ℝ) + 1 / 2) * (M : ℝ) = (i : ℝ) * π + π / 2 := by
    field_simp
    ring
  rw [e, Real.cos_add, Real.cos_pi_div_two, Real.sin_pi_div_two,
    Real.sin_nat_mul_pi]
  ring

/-- Odd half of the Lee radix-2 butterfly: with
`o[i] = (x[i] - x[2M-1-i]) / (2cos(π/(2M)*(i+1/2)))`, the odd-indexed output
`2k+1` of a size-2M DCT is `DCT_M(o)[k] + DCT_M(o)[k+1]`. -/
lemma lee_odd (M : ℕ) (x : ℕ → ℝ) (k : ℕ) :
    DCT1D (2 * M) x (2 * k + 1) =
      DCT1D M (fun i => (x i - x (2 * M - 1 - i)) /
        (2 * Real.cos (π / (2 * (M : ℝ)) * ((i : ℝ) + 1 / 2)))) k +
      DCT1D M (fun i => (x i - x (2 * M - 1 - i)) /
        (2 * Real.cos (π / (2 * (M : ℝ)) * ((i : ℝ) + 1 / 2)))) (k + 1) := by
  rw [DCT1D_eq_sum, DCT1D_eq_sum, DCT1D_eq_sum, ← Finset.sum_add_distrib]
  set f : ℕ → ℝ :=
    fun i => x i * Real.cos (π / (↑(2 * M)) * ((i : ℝ) + 1 / 2) * (↑(2 * k + 1))) with hf
  have h1 : ∑ i ∈ Finset.range (2 * M), f i
      = ∑ i ∈ Finset.range M, f i + ∑ i ∈ Finset.range M, f (M + i) := by
    rw [two_mul, Finset.sum_range_add]
  have h2 : ∑ i ∈ Finset.range M, f (M + i)
      = ∑ i ∈ Finset.range M, f (M + (M - 1 - i)) :=
    (Finset.sum_range_reflect (fun i => f (M + i)) M).symm
  rw [h1, h2, ← Finset.sum_add_distrib]
  refine Finset.sum_congr rfl fun i hi => ?_
  have hiM : i < M := Finset.mem_range.mp hi
  have hMpos : 0 < M := by omega
  have hMne : (M : ℝ) ≠ 0 := Nat.cast_ne_zero.mpr (by omega)
  have hidx : M + (M - 1 - i) = 2 * M - 1 - i := by omega
  rw [hidx]
  simp only [hf]
  have hcast : ((2 * M - 1 - i : ℕ) : ℝ) = 2 * (M : ℝ) - 1 - (i : ℝ) := by
    have h' : 2 * M - 1 - i = 2 * M - (1 + i) := by omega
    rw [h', Nat.cast_sub (by omega)]
    push_cast
    ring
  -- the half-angle at which the divisor cosine is taken is in (0, π/2)
  have hilt : (i : ℝ) + 1 / 2 < (M : ℝ) := by
    have h' : (i : ℝ) + 1 ≤ (M : ℝ) := by exact_mod_cast hiM
    linarith
  have hMposR : (0 : ℝ) < (M : ℝ) := by exact_mod_cast hMpos
  have hspos : 0 < π / (2 * (M : ℝ)) * ((i : ℝ) + 1 / 2) := by positivity
  have hslt : π / (2 * (M : ℝ)) * ((i : ℝ) + 1 / 2) < π / 2 := by
    rw [div_mul_eq_mul_div, div_lt_div_iff₀ (by positivity) (by norm_num)]
    nlinarith [Real.pi_pos]
  have hcosne : Real.cos (π / (2 * (M : ℝ)) * ((i : ℝ) + 1 / 2)) ≠ 0 :=
    ne_of_gt (Real.cos_pos_of_mem_Ioo ⟨by linarith, hslt⟩)
  -- left side term: pair i with 2M-1-i, the reflected cosine picks up a sign
  have eL1 : π / (↑(2 * M)) * ((i : ℝ) + 1 / 2) * (↑(2 * k + 1))
      = π / (2 * (M : ℝ)) * ((i : ℝ) + 1 / 2) * (2 * (k : ℝ) + 1) := by
    push_cast
    ring
  have eL2 : π / (↑(2 * M)) * (((2 * M - 1 - i : ℕ) : ℝ) + 1 / 2) * (↑(2 * k + 1))
      = ((2 * k + 1 : ℕ) : ℝ) * π
        - π / (2 * (M : ℝ)) * ((i : ℝ) + 1 / 2) * (2 * (k : ℝ) + 1) := by
    rw [hcast]
    push_cast
    field_simp
    ring
  have hcosodd : Real.cos (((2 * k + 1 : ℕ) : ℝ) * π) = -1 := by
    push_cast
    rw [show (2 * (k : ℝ) + 1) * π = (k : ℝ) * (2 * π) + π by ring,
      Real.cos_add, Real.cos_nat_mul_two_pi, Real.cos_pi, Real.sin_pi]
    ring
  have hsinodd : Real.sin (((2 * k + 1 : ℕ) : ℝ) * π) = 0 :=
    Real.sin_nat_mul_pi (2 * k + 1)
  -- right side term: sum-to-product on the two sub-transform cosines
  have eR1 : π / (M : ℝ) * ((i : ℝ) + 1 / 2) * (k : ℝ)
      + π / (M : ℝ) * ((i : ℝ) + 1 / 2) * ((k : ℝ) + 1)
      = 2 * (π / (2 * (M : ℝ)) * ((i : ℝ) + 1 / 2) * (2 * (k : ℝ) + 1)) := by
    field_simp
    ring
  have eR2 : π / (M : ℝ) * ((i : ℝ) + 1 / 2) * (k : ℝ)
      - π / (M : ℝ) * ((i : ℝ) + 1 / 2) * ((k : ℝ) + 1)
      = 2 * -(π / (2 * (M : ℝ)) * ((i : ℝ) + 1 / 2)) := by
    field_simp
    ring
  have hprod : Real.cos (π / (M : ℝ) * ((i : ℝ) + 1 / 2) * (k : ℝ))
      + Real.cos (π / (M : ℝ) * ((i : ℝ) + 1 / 2) * ((k : ℝ) + 1))
      = 2 * Real.cos (π / (2 * (M : ℝ)) * ((i : ℝ) + 1 / 2) * (2 * (k : ℝ) + 1))
        * Real.cos (π / (2 * (M : ℝ)) * ((i : ℝ) + 1 / 2)) := by
    rw [Real.cos_add_cos]
    rw [show (π / (M : ℝ) * ((i : ℝ) + 1 / 2) * (k : ℝ)
        + π / (M : ℝ) * ((i : ℝ) + 1 / 2) * ((k : ℝ) + 1)) / 2
        = π / (2 * (M : ℝ)) * ((i : ℝ) + 1 / 2) * (2 * (k : ℝ) + 1) by
      rw [div_eq_iff (by norm_num : (2 : ℝ) ≠ 0), eR1]; ring]
    rw [show (π / (M : ℝ) * ((i : ℝ) + 1 / 2) * (k : ℝ)
        - π / (M : ℝ) * ((i : ℝ) + 1 / 2) * ((k : ℝ) + 1)) / 2
        = -(π / (2 * (M : ℝ)) * ((i : ℝ) + 1 / 2)) by
      rw [div_eq_iff (by norm_num : (2 : ℝ) ≠ 0), eR2]; ring]
    rw [Real.cos_neg]
  have hk1 : ((k + 1 : ℕ) : ℝ) = (k : ℝ) + 1 := by push_cast; ring
  have hDne : 2 * Real.cos (π / (2 * (M : ℝ)) * ((i : ℝ) + 1 / 2)) ≠ 0 :=
    mul_ne_zero two_ne_zero hcosne
  rw [eL1, eL2, Real.cos_sub, hcosodd, hsinodd, hk1]
  rw [← mul_add, hprod]
  set cB := Real.cos (π / (2 * (M : ℝ)) * ((i : ℝ) + 1 / 2) * (2 * (k : ℝ) + 1)) with hcB
  set cs := Real.cos (π / (2 * (M : ℝ)) * ((i : ℝ) + 1 / 2)) with hcs
  field_simp [hcosne]
  ring

/-- The `dct64` coefficient table as the `init` function of static_dct.go
computes it: `dct64[i] = cos((i+0.5)*π/64) * 2`. -/
noncomputable def dct64 (i : ℕ) : ℝ := Real.cos ((i + 1 / 2) * π / 64) * 2

/-- The `dct32` table from `init`: `dct32[i] = cos((i+0.5)*π/32) * 2`. -/
noncomputable def dct32 (i : ℕ) : ℝ := Real.cos ((i + 1 / 2) * π / 32) * 2

/-- The `dct16` table from `init`: `dct16[i] = cos((i+0.5)*π/16) * 2`. -/
noncomputable def dct16 (i : ℕ) : ℝ := Real.cos ((i + 1 / 2) * π / 16) * 2

/-- Embedding of `forwardDCT4` (static_dct.go lines 144-165).  The divisor
literals 1.8477590650225735, 0.7653668647301797 and 1.4142135623730951 of the
source are 2cos(π/8), 2cos(3π/8) and 2cos(π/4) = √2. -/
noncomputable def forwardDCT4 (input : ℕ → ℝ) : ℕ → ℝ :=
  let t0 := input 0 + input 3
  let t1 := input 1 + input 2
  let t2 := (input 0 - input 3) / (2 * Real.cos (π / 8))
  let t3 := (input 1 - input 2) / (2 * Real.cos (3 * π / 8))
  let u0 := t0 + t1
  let u1 := (t0 - t1) / (2 * Real.cos (π / 4))
  let u2 := t2 + t3
  let u3 := (t2 - t3) / (2 * Real.cos (π / 4))
  fun k => if k = 0 then u0 else if k = 1 then u2 + u3 else if k = 2 then u1
    else if k = 3 then u3 else input k

/-- Embedding of `forwardDCT8` (static_dct.go lines 113-141).  The four `b`
divisors 1.9615705608064609, 1.6629392246050907, 1.1111404660392046 and
0.3901806440322566 are `2cos((i+1/2)π/8)` for i = 0..3. -/
noncomputable def forwardDCT8 (input : ℕ → ℝ) : ℕ → ℝ :=
  let a : ℕ → ℝ := fun i => input i + input (7 - i)
  let b : ℕ → ℝ := fun i => (input i - input (7 - i)) / (2 * Real.cos ((i + 1 / 2) * π / 8))
  let aT := forwardDCT4 a
  let bT := forwardDCT4 b
  fun k => if 8 ≤ k then input k
    else if k % 2 = 0 then aT (k / 2)
    else if k = 7 then bT 3
    else bT (k / 2) + bT (k / 2 + 1)

/-- Embedding of `forwardDCT16` (static_dct.go lines 96-110). -/
noncomputable def forwardDCT16 (input : ℕ → ℝ) : ℕ → ℝ :=
  let e : ℕ → ℝ := fun i => input i + input (15 - i)
  let o : ℕ → ℝ := fun i => (input i - input (15 - i)) / dct16 i
  let eT := forwardDCT8 e
  let oT := forwardDCT8 o
  fun k => if 16 ≤ k then input k
    else if k % 2 = 0 then eT (k / 2)
    else if k = 15 then oT 7
    else oT (k / 2) + oT (k / 2 + 1)

/-- Embedding of `forwardDCT32` (static_dct.go lines 79-93). -/
noncomputable def forwardDCT32 (input : ℕ → ℝ) : ℕ → ℝ :=
  let e : ℕ → ℝ := fun i => input i + input (31 - i)
  let o : ℕ → ℝ := fun i => (input i - input (31 - i)) / dct32 i
  let eT := forwardDCT16 e
  let oT := forwardDCT16 o
  fun k => if 32 ≤ k then input k
    else if k % 2 = 0 then eT (k / 2)
    else if k = 31 then oT 15
    else oT (k / 2) + oT (k / 2 + 1)

/-- Embedding of `forwardDCT64` (static_dct.go lines 62-76). -/
noncomputable def forwardDCT64 (input : ℕ → ℝ) : ℕ → ℝ :=
  let e : ℕ → ℝ := fun i => input i + input (63 - i)
  let o : ℕ → ℝ := fun i => (input i - input (63 - i)) / dct64 i
  let eT := forwardDCT32 e
  let oT := forwardDCT32 o
  fun k => if 64 ≤ k then input k
    else if k % 2 = 0 then eT (k / 2)
    else if k = 63 then oT 31
    else oT (k / 2) + oT (k / 2 + 1)

lemma DCT1D_two_zero (y : ℕ → ℝ) : DCT1D 2 y 0 = y 0 + y 1 := by
  rw [DCT1D_eq_sum, Finset.sum_range_succ, Finset.sum_range_succ,
    Finset.sum_range_zero]
  norm_num

lemma DCT1D_two_one (y : ℕ → ℝ) :
    DCT1D 2 y 1 = (y 0 - y 1) / (2 * Real.cos (π / 4)) := by
  rw [DCT1D_eq_sum, Finset.sum_range_succ, Finset.sum_range_succ,
    Finset.sum_range_zero]
  have hs2 : Real.sqrt 2 * Real.sqrt 2 = 2 := Real.mul_self_sqrt (by norm_num)
  have hne : Real.sqrt 2 ≠ 0 := by positivity
  have a0 : π / ((2 : ℕ) : ℝ) * (((0 : ℕ) : ℝ) + 1 / 2) * ((1 : ℕ) : ℝ) = π / 4 := by
    push_cast
    ring
  have a1 : π / ((2 : ℕ) : ℝ) * (((1 : ℕ) : ℝ) + 1 / 2) * ((1 : ℕ) : ℝ)
      = π - π / 4 := by
    push_cast
    ring
  rw [a0, a1, Real.cos_pi_sub, Real.cos_pi_div_four]
  field_simp
  linear_combination (y 0 - y 1) * hs2

/-- One recombination level of the fast path: if `sub` computes the size-M
DCT on indices < M and `c` is the level-M/2-angle cosine table, the
even/odd/boundary recombination computes the size-2M DCT. -/
lemma forward_step (M : ℕ) (hM : 0 < M) (c : ℕ → ℝ)
    (hc : ∀ i, i < M → c i = 2 * Real.cos (π / (2 * (M : ℝ)) * ((i : ℝ) + 1 / 2)))
    (sub : (ℕ → ℝ) → ℕ → ℝ)
    (hsub : ∀ y k, k < M → sub y k = DCT1D M y k)
    (x : ℕ → ℝ) (k : ℕ) (hk : k < 2 * M) :
    (if k % 2 = 0 then sub (fun i => x i + x (2 * M - 1 - i)) (k / 2)
     else if k = 2 * M - 1 then sub (fun i => (x i - x (2 * M - 1 - i)) / c i) (M - 1)
     else sub (fun i => (x i - x (2 * M - 1 - i)) / c i) (k / 2)
       + sub (fun i => (x i - x (2 * M - 1 - i)) / c i) (k / 2 + 1))
    = DCT1D (2 * M) x k := by
  have ho : ∀ kk, DCT1D M (fun i => (x i - x (2 * M - 1 - i)) / c i) kk
      = DCT1D M (fun i => (x i - x (2 * M - 1 - i)) /
          (2 * Real.cos (π / (2 * (M : ℝ)) * ((i : ℝ) + 1 / 2)))) kk :=
    fun kk => DCT1D_congr M _ _ (fun i hi => by rw [hc i hi]) kk
  obtain ⟨j, rfl | rfl⟩ : ∃ j, k = 2 * j ∨ k = 2 * j + 1 := ⟨k / 2, by omega⟩
  · rw [if_pos (by omega)]
    have h2 : 2 * j / 2 = j := by omega
    rw [h2, hsub _ j (by omega), lee_even]
  · rw [if_neg (by omega)]
    by_cases hlast : 2 * j + 1 = 2 * M - 1
    · rw [if_pos hlast, hsub _ _ (by omega), ho, lee_odd]
      have hj : j = M - 1 := by omega
      subst hj
      rw [show M - 1 + 1 = M by omega, DCT1D_apply_self]
      ring
    · have h2 : (2 * j + 1) / 2 = j := by omega
      rw [if_neg hlast, h2, hsub _ j (by omega), hsub _ (j + 1) (by omega),
        ho, ho, lee_odd]

/-- `forwardDCT4` agrees with the direct DCT-II sum on indices < 4. -/
lemma forwardDCT4_eq (x : ℕ → ℝ) (k : ℕ) (hk : k < 4) :
    forwardDCT4 x k = DCT1D 4 x k := by
  have hsub2 : ∀ (y : ℕ → ℝ) (kk : ℕ), kk < 2 →
      (if kk = 0 then y 0 + y 1
       else if kk = 1 then (y 0 - y 1) / (2 * Real.cos (π / 4)) else y kk)
      = DCT1D 2 y kk := by
    intro y kk hkk
    interval_cases kk
    · exact (DCT1D_two_zero y).symm
    · exact (DCT1D_two_one y).symm
  have hc2 : ∀ i : ℕ, i < 2 →
      (if i = 0 then 2 * Real.cos (π / 8) else 2 * Real.cos (3 * π / 8))
      = 2 * Real.cos (π / (2 * ((2 : ℕ) : ℝ)) * ((i : ℝ) + 1 / 2)) := by
    intro i hi
    interval_cases i
    · rw [if_pos rfl]
      congr 1
      congr 1
      push_cast
      ring
    · rw [if_neg (by norm_num)]
      congr 1
      congr 1
      push_cast
      ring
  have H := forward_step 2 (by norm_num)
    (fun i => if i = 0 then 2 * Real.cos (π / 8) else 2 * Real.cos (3 * π / 8)) hc2
    (fun y kk => if kk = 0 then y 0 + y 1
      else if kk = 1 then (y 0 - y 1) / (2 * Real.cos (π / 4)) else y kk)
    hsub2 x k (by omega)
  interval_cases k <;> exact H

/-- `forwardDCT8` agrees with the direct DCT-II sum on indices < 8. -/
lemma forwardDCT8_eq (x : ℕ → ℝ) (k : ℕ) (hk : k < 8) :
    forwardDCT8 x k = DCT1D 8 x k := by
  have hc : ∀ i : ℕ, i < 4 → 2 * Real.cos (((i : ℝ) + 1 / 2) * π / 8)
      = 2 * Real.cos (π / (2 * ((4 : ℕ) : ℝ)) * ((i : ℝ) + 1 / 2)) := by
    intro i _
    congr 1
    push_cast
    ring_nf
  have H := forward_step 4 (by norm_num)
    (fun i => 2 * Real.cos (((i : ℝ) + 1 / 2) * π / 8)) hc
    forwardDCT4 forwardDCT4_eq x k (by omega)
  simp only [forwardDCT8]
  rw [if_neg (by omega)]
  exact H

/-- `forwardDCT16` agrees with the direct DCT-II sum on indices < 16. -/
lemma forwardDCT16_eq (x : ℕ → ℝ) (k : ℕ) (hk : k < 16) :
    forwardDCT16 x k = DCT1D 16 x k := by
  have hc : ∀ i : ℕ, i < 8 → dct16 i
      = 2 * Real.cos (π / (2 * ((8 : ℕ) : ℝ)) * ((i : ℝ) + 1 / 2)) := by
    intro i _
    show Real.cos (((i : ℝ) + 1 / 2) * π / 16) * 2 = _
    rw [mul_comm]
    congr 1
    push_cast
    ring_nf
  have H := forward_step 8 (by norm_num) dct16 hc
    forwardDCT8 forwardDCT8_eq x k (by omega)
  simp only [forwardDCT16]
  rw [if_neg (by omega)]
  exact H

/-- `forwardDCT32` agrees with the direct DCT-II sum on indices < 32. -/
lemma forwardDCT32_eq (x : ℕ → ℝ) (k : ℕ) (hk : k < 32) :
    forwardDCT32 x k = DCT1D 32 x k := by
  have hc : ∀ i : ℕ, i < 16 → dct32 i
      = 2 * Real.cos (π / (2 * ((16 : ℕ) : ℝ)) * ((i : ℝ) + 1 / 2)) := by
    intro i _
    show Real.cos (((i : ℝ) + 1 / 2) * π / 32) * 2 = _
    rw [mul_comm]
    congr 1
    push_cast
    ring_nf
  have H := forward_step 16 (by norm_num) dct32 hc
    forwardDCT16 forwardDCT16_eq x k (by omega)
  simp only [forwardDCT32]
  rw [if_neg (by omega)]
  exact H

/-- `forwardDCT64` agrees with the direct DCT-II sum on indices < 64. -/
lemma forwardDCT64_eq (x : ℕ → ℝ) (k : ℕ) (hk : k < 64) :
    forwardDCT64 x k = DCT1D 64 x k := by
  have hc : ∀ i : ℕ, i < 32 → dct64 i
      = 2 * Real.cos (π / (2 * ((32 : ℕ) : ℝ)) * ((i : ℝ) + 1 / 2)) := by
    intro i _
    show Real.cos (((i : ℝ) + 1 / 2) * π / 64) * 2 = _
    rw [mul_comm]
    congr 1
    push_cast
    ring_nf
  have H := forward_step 32 (by norm_num) dct64 hc
    forwardDCT32 forwardDCT32_eq x k (by omega)
  simp only [forwardDCT64]
  rw [if_neg (by omega)]
  exact H

/-- Embedding of `DCT2D` (dct.go lines 8-39): a 1D DCT on every row, then a
1D DCT on every resulting column, `result[i][j] = DCT1D(column_j)[i]`.  The
concurrent variant of the same function dispatches row and column transforms
to goroutines writing disjoint locations and computes the same value. -/
noncomputable def DCT2D (rows cols : ℕ) (input : ℕ → ℕ → ℝ) : ℕ → ℕ → ℝ :=
  fun i j => DCT1D rows (fun r => DCT1D cols (input r) j) i

/-- Embedding of `DCT2DFast64` (static_dct.go lines 7-31): `forwardDCT64` on
each of the 64 rows in place, then on each gathered column i < 8, keeping the
first 8 outputs: `flattens[8*j+i] = column_i[j]`. -/
noncomputable def DCT2DFast64 (input : ℕ → ℝ) : ℕ → ℝ :=
  let rowT : ℕ → ℕ → ℝ := fun i => forwardDCT64 (fun j => input (i * 64 + j))
  fun idx => forwardDCT64 (fun r => rowT r (idx % 8)) (idx / 8)

/-- Embedding of `DCT2DFast32` (static_dct.go lines 35-59): `forwardDCT32` on
each of the 32 rows, then on each gathered column i < hashSize, keeping the
first hashSize outputs: `flattens[hashSize*j+i] = column_i[j]`. -/
noncomputable def DCT2DFast32 (input : ℕ → ℝ) (hashSize : ℕ) : ℕ → ℝ :=
  let rowT : ℕ → ℕ → ℝ := fun i => forwardDCT32 (fun j => input (i * 32 + j))
  fun idx => forwardDCT32 (fun r => rowT r (idx % hashSize)) (idx / hashSize)

/-- C6: `DCT1D` maps a length-n vector to the vector whose k-th entry is
`Σ_{i<n} x[i] * cos(π/n * (i+0.5) * k)`, with no 1/√n or 2/n normalization
factor applied. -/
theorem DCT1D_is_plain_cosine_sum (n : ℕ) (x : ℕ → ℝ) (k : ℕ) :
    DCT1D n x k
      = ∑ i ∈ Finset.range n, x i * Real.cos (π / n * ((i : ℝ) + 1 / 2) * k) :=
  DCT1D_eq_sum n x k

/-- C1: the 64 outputs of `DCT2DFast64` agree (within 1e-6; in the real-number
model they are equal, so the bound is 0) with the row-major flattening of the
top-left 8×8 block of `DCT2D` on the same 64×64 matrix; likewise
`DCT2DFast32 _ K` for 1 ≤ K ≤ 32 against the top-left K×K block of the 32×32
`DCT2D`. -/
theorem fastDCT_refines_DCT2D :
    (∀ (m : ℕ → ℕ → ℝ) (k : ℕ), k < 64 →
      |DCT2DFast64 (fun idx => m (idx / 64) (idx % 64)) k
        - DCT2D 64 64 m (k / 8) (k % 8)| ≤ 1e-6) ∧
    (∀ (m : ℕ → ℕ → ℝ) (K k : ℕ), 1 ≤ K → K ≤ 32 → k < K * K →
      |DCT2DFast32 (fun idx => m (idx / 32) (idx % 32)) K k
        - DCT2D 32 32 m (k / K) (k % K)| ≤ 1e-6) := by
  constructor
  · intro m k hk
    have hexact : DCT2DFast64 (fun idx => m (idx / 64) (idx % 64)) k
        = DCT2D 64 64 m (k / 8) (k % 8) := by
      simp only [DCT2DFast64, DCT2D]
      rw [forwardDCT64_eq _ (k / 8) (by omega)]
      refine DCT1D_congr 64 _ _ (fun r hr => ?_) (k / 8)
      rw [forwardDCT64_eq _ (k % 8) (by omega)]
      refine DCT1D_congr 64 _ _ (fun j hj => ?_) (k % 8)
      show m ((r * 64 + j) / 64) ((r * 64 + j) % 64) = m r j
      rw [show (r * 64 + j) / 64 = r by omega, show (r * 64 + j) % 64 = j by omega]
    rw [hexact, sub_self, abs_zero]
    norm_num
  · intro m K k hK1 hK32 hk
    have hiK : k % K < K := Nat.mod_lt _ (by omega)
    have hjK : k / K < K := (Nat.div_lt_iff_lt_mul (by omega)).mpr hk
    have hexact : DCT2DFast32 (fun idx => m (idx / 32) (idx % 32)) K k
        = DCT2D 32 32 m (k / K) (k % K) := by
      simp only [DCT2DFast32, DCT2D]
      rw [forwardDCT32_eq _ (k / K) (by omega)]
      refine DCT1D_congr 32 _ _ (fun r hr => ?_) (k / K)
      rw [forwardDCT32_eq _ (k % K) (by omega)]
      refine DCT1D_congr 32 _ _ (fun j hj => ?_) (k % K)
      show m ((r * 32 + j) / 32) ((r * 32 + j) % 32) = m r j
      rw [show (r * 32 + j) / 32 = r by omega, show (r * 32 + j) % 32 = j by omega]
    rw [hexact, sub_self, abs_zero]
    norm_num

/-- Witness for C1 at the constant-1 matrix and output index 0. -/
theorem fastDCT_refines_DCT2D_witness :
    |DCT2DFast64 (fun _ => (1 : ℝ)) 0 - DCT2D 64 64 (fun _ _ => (1 : ℝ)) 0 0| ≤ 1e-6
    ∧ |DCT2DFast32 (fun _ => (1 : ℝ)) 8 0 - DCT2D 32 32 (fun _ _ => (1 : ℝ)) 0 0| ≤ 1e-6 :=
  ⟨fastDCT_refines_DCT2D.1 (fun _ _ => 1) 0 (by norm_num),
   fastDCT_refines_DCT2D.2 (fun _ _ => 1) 8 0 (by norm_num) (by norm_num) (by norm_num)⟩

lemma fdct64_hfun (x : ℕ → ℝ) : (fun i => (x i - x (63 - i)) / dct64 i)
    = fun i => (x i - x (63 - i)) / (2 * Real.cos (π * ((i : ℝ) + 1 / 2) / 64)) := by
  funext i
  congr 1
  show Real.cos (((i : ℝ) + 1 / 2) * π / 64) * 2 = _
  rw [mul_comm]
  congr 1
  ring

lemma fdct64_even (x : ℕ → ℝ) (i : ℕ) (hi : i < 32) :
    forwardDCT64 x (2 * i) = forwardDCT32 (fun i => x i + x (63 - i)) i := by
  simp only [forwardDCT64]
  rw [if_neg (by omega), if_pos (by omega), show 2 * i / 2 = i by omega]

lemma fdct64_odd (x : ℕ → ℝ) (i : ℕ) (hi : i < 31) :
    forwardDCT64 x (2 * i + 1)
      = forwardDCT32
          (fun i => (x i - x (63 - i)) / (2 * Real.cos (π * ((i : ℝ) + 1 / 2) / 64))) i
        + forwardDCT32
          (fun i => (x i - x (63 - i)) / (2 * Real.cos (π * ((i : ℝ) + 1 / 2) / 64))) (i + 1) := by
  simp only [forwardDCT64]
  rw [if_neg (by omega), if_neg (by omega), if_neg (by omega),
    show (2 * i + 1) / 2 = i by omega, fdct64_hfun]

lemma fdct64_b62 (x : ℕ → ℝ) :
    forwardDCT64 x 62 = forwardDCT32 (fun i => x i + x (63 - i)) 31 := by
  rw [forwardDCT64_eq x 62 (by norm_num), forwardDCT32_eq _ 31 (by norm_num)]
  have h := lee_even 32 x 31
  norm_num at h
  exact h

lemma fdct64_b63 (x : ℕ → ℝ) :
    forwardDCT64 x 63 = forwardDCT32
      (fun i => (x i - x (63 - i)) / (2 * Real.cos (π * ((i : ℝ) + 1 / 2) / 64))) 31 := by
  rw [forwardDCT64_eq x 63 (by norm_num), forwardDCT32_eq _ 31 (by norm_num)]
  have h := lee_odd 32 x 31
  norm_num [DCT1D_apply_self] at h
  rw [h]
  refine DCT1D_congr 32 _ _ (fun i hi => ?_) 31
  congr 1
  congr 1
  congr 1
  ring

lemma fdct32_hfun (x : ℕ → ℝ) : (fun i => (x i - x (31 - i)) / dct32 i)
    = fun i => (x i - x (31 - i)) / (2 * Real.cos (π * ((i : ℝ) + 1 / 2) / 32)) := by
  funext i
  congr 1
  show Real.cos (((i : ℝ) + 1 / 2) * π / 32) * 2 = _
  rw [mul_comm]
  congr 1
  ring

lemma fdct32_even (x : ℕ → ℝ) (i : ℕ) (hi : i < 16) :
    forwardDCT32 x (2 * i) = forwardDCT16 (fun i => x i + x (31 - i)) i := by
  simp only [forwardDCT32]
  rw [if_neg (by omega), if_pos (by omega), show 2 * i / 2 = i by omega]

lemma fdct32_odd (x : ℕ → ℝ) (i : ℕ) (hi : i < 15) :
    forwardDCT32 x (2 * i + 1)
      = forwardDCT16
          (fun i => (x i - x (31 - i)) / (2 * Real.cos (π * ((i : ℝ) + 1 / 2) / 32))) i
        + forwardDCT16
          (fun i => (x i - x (31 - i)) / (2 * Real.cos (π * ((i : ℝ) + 1 / 2) / 32))) (i + 1) := by
  simp only [forwardDCT32]
  rw [if_neg (by omega), if_neg (by omega), if_neg (by omega),
    show (2 * i + 1) / 2 = i by omega, fdct32_hfun]

lemma fdct32_b30 (x : ℕ → ℝ) :
    forwardDCT32 x 30 = forwardDCT16 (fun i => x i + x (31 - i)) 15 := by
  rw [forwardDCT32_eq x 30 (by norm_num), forwardDCT16_eq _ 15 (by norm_num)]
  have h := lee_even 16 x 15
  norm_num at h
  exact h

lemma fdct32_b31 (x : ℕ → ℝ) :
    forwardDCT32 x 31 = forwardDCT16
      (fun i => (x i - x (31 - i)) / (2 * Real.cos (π * ((i : ℝ) + 1 / 2) / 32))) 15 := by
  rw [forwardDCT32_eq x 31 (by norm_num), forwardDCT16_eq _ 15 (by norm_num)]
  have h := lee_odd 16 x 15
  norm_num [DCT1D_apply_self] at h
  rw [h]
  refine DCT1D_congr 16 _ _ (fun i hi => ?_) 15
  congr 1
  congr 1
  congr 1
  ring

lemma fdct16_hfun (x : ℕ → ℝ) : (fun i => (x i - x (15 - i)) / dct16 i)
    = fun i => (x i - x (15 - i)) / (2 * Real.cos (π * ((i : ℝ) + 1 / 2) / 16)) := by
  funext i
  congr 1
  show Real.cos (((i : ℝ) + 1 / 2) * π / 16) * 2 = _
  rw [mul_comm]
  congr 1
  ring

lemma fdct16_even (x : ℕ → ℝ) (i : ℕ) (hi : i < 8) :
    forwardDCT16 x (2 * i) = forwardDCT8 (fun i => x i + x (15 - i)) i := by
  simp only [forwardDCT16]
  rw [if_neg (by omega), if_pos (by omega), show 2 * i / 2 = i by omega]

lemma fdct16_odd (x : ℕ → ℝ) (i : ℕ) (hi : i < 7) :
    forwardDCT16 x (2 * i + 1)
      = forwardDCT8
          (fun i => (x i - x (15 - i)) / (2 * Real.cos (π * ((i : ℝ) + 1 / 2) / 16))) i
        + forwardDCT8
          (fun i => (x i - x (15 - i)) / (2 * Real.cos (π * ((i : ℝ) + 1 / 2) / 16))) (i + 1) := by
  simp only [forwardDCT16]
  rw [if_neg (by omega), if_neg (by omega), if_neg (by omega),
    show (2 * i + 1) / 2 = i by omega, fdct16_hfun]

lemma fdct16_b14 (x : ℕ → ℝ) :
    forwardDCT16 x 14 = forwardDCT8 (fun i => x i + x (15 - i)) 7 := by
  rw [forwardDCT16_eq x 14 (by norm_num), forwardDCT8_eq _ 7 (by norm_num)]
  have h := lee_even 8 x 7
  norm_num at h
  exact h

lemma fdct16_b15 (x : ℕ → ℝ) :
    forwardDCT16 x 15 = forwardDCT8
      (fun i => (x i - x (15 - i)) / (2 * Real.cos (π * ((i : ℝ) + 1 / 2) / 16))) 7 := by
  rw [forwardDCT16_eq x 15 (by norm_num), forwardDCT8_eq _ 7 (by norm_num)]
  have h := lee_odd 8 x 7
  norm_num [DCT1D_apply_self] at h
  rw [h]
  refine DCT1D_congr 8 _ _ (fun i hi => ?_) 7
  congr 1
  congr 1
  congr 1
  ring

lemma fdct8_hfun (x : ℕ → ℝ) :
    (fun i : ℕ => (x i - x (7 - i)) / (2 * Real.cos (((i : ℝ) + 1 / 2) * π / 8)))
    = fun i => (x i - x (7 - i)) / (2 * Real.cos (π * ((i : ℝ) + 1 / 2) / 8)) := by
  funext i
  congr 1
  congr 1
  congr 1
  ring

lemma fdct8_even (x : ℕ → ℝ) (i : ℕ) (hi : i < 4) :
    forwardDCT8 x (2 * i) = forwardDCT4 (fun i => x i + x (7 - i)) i := by
  simp only [forwardDCT8]
  rw [if_neg (by omega), if_pos (by omega), show 2 * i / 2 = i by omega]

lemma fdct8_odd (x : ℕ → ℝ) (i : ℕ) (hi : i < 3) :
    forwardDCT8 x (2 * i + 1)
      = forwardDCT4
          (fun i => (x i - x (7 - i)) / (2 * Real.cos (π * ((i : ℝ) + 1 / 2) / 8))) i
        + forwardDCT4
          (fun i => (x i - x (7 - i)) / (2 * Real.cos (π * ((i : ℝ) + 1 / 2) / 8))) (i + 1) := by
  simp only [forwardDCT8]
  rw [if_neg (by omega), if_neg (by omega), if_neg (by omega),
    show (2 * i + 1) / 2 = i by omega, fdct8_hfun]

lemma fdct8_b6 (x : ℕ → ℝ) :
    forwardDCT8 x 6 = forwardDCT4 (fun i => x i + x (7 - i)) 3 := by
  rw [forwardDCT8_eq x 6 (by norm_num), forwardDCT4_eq _ 3 (by norm_num)]
  have h := lee_even 4 x 3
  norm_num at h
  exact h

lemma fdct8_b7 (x : ℕ → ℝ) :
    forwardDCT8 x 7 = forwardDCT4
      (fun i => (x i - x (7 - i)) / (2 * Real.cos (π * ((i : ℝ) + 1 / 2) / 8))) 3 := by
  rw [forwardDCT8_eq x 7 (by norm_num), forwardDCT4_eq _ 3 (by norm_num)]
  have h := lee_odd 4 x 3
  norm_num [DCT1D_apply_self] at h
  rw [h]
  refine DCT1D_congr 4 _ _ (fun i hi => ?_) 3
  congr 1
  congr 1
  congr 1
  ring

/-- C5: each level of the fast DCT on a vector of length M — the size-64,
size-32, size-16 and size-8 levels, all the levels of the recursion with a
proper sub-routine — computes, for i < M/2, `even[i] = x[i] + x[M-1-i]` and
`odd[i] = (x[i]-x[M-1-i]) / c_M[i]` with `c_M[i] = 2cos(π(i+0.5)/M)` (the
precomputed `dct64`/`dct32`/`dct16` tables; at size 8 the divisors are inline
constants with the same values), transforms both halves with the size-M/2
routine, and recombines as `result[2i] = evenT[i]`,
`result[2i+1] = oddT[i] + oddT[i+1]` for interior i, the two boundary
outputs (M-2 and M-1) taken directly from the sub-results. -/
theorem forwardDCT64_level_structure (x : ℕ → ℝ) :
    ((∀ i, i < 32 → forwardDCT64 x (2 * i)
      = forwardDCT32 (fun i => x i + x (63 - i)) i) ∧
    (∀ i, i < 31 → forwardDCT64 x (2 * i + 1)
      = forwardDCT32
          (fun i => (x i - x (63 - i)) / (2 * Real.cos (π * ((i : ℝ) + 1 / 2) / 64))) i
        + forwardDCT32
          (fun i => (x i - x (63 - i)) / (2 * Real.cos (π * ((i : ℝ) + 1 / 2) / 64))) (i + 1)) ∧
    forwardDCT64 x 62 = forwardDCT32 (fun i => x i + x (63 - i)) 31 ∧
    forwardDCT64 x 63 = forwardDCT32
      (fun i => (x i - x (63 - i)) / (2 * Real.cos (π * ((i : ℝ) + 1 / 2) / 64))) 31) ∧
    ((∀ i, i < 16 → forwardDCT32 x (2 * i)
      = forwardDCT16 (fun i => x i + x (31 - i)) i) ∧
    (∀ i, i < 15 → forwardDCT32 x (2 * i + 1)
      = forwardDCT16
          (fun i => (x i - x (31 - i)) / (2 * Real.cos (π * ((i : ℝ) + 1 / 2) / 32))) i
        + forwardDCT16
          (fun i => (x i - x (31 - i)) / (2 * Real.cos (π * ((i : ℝ) + 1 / 2) / 32))) (i + 1)) ∧
    forwardDCT32 x 30 = forwardDCT16 (fun i => x i + x (31 - i)) 15 ∧
    forwardDCT32 x 31 = forwardDCT16
      (fun i => (x i - x (31 - i)) / (2 * Real.cos (π * ((i : ℝ) + 1 / 2) / 32))) 15) ∧
    ((∀ i, i < 8 → forwardDCT16 x (2 * i)
      = forwardDCT8 (fun i => x i + x (15 - i)) i) ∧
    (∀ i, i < 7 → forwardDCT16 x (2 * i + 1)
      = forwardDCT8
          (fun i => (x i - x (15 - i)) / (2 * Real.cos (π * ((i : ℝ) + 1 / 2) / 16))) i
        + forwardDCT8
          (fun i => (x i - x (15 - i)) / (2 * Real.cos (π * ((i : ℝ) + 1 / 2) / 16))) (i + 1)) ∧
    forwardDCT16 x 14 = forwardDCT8 (fun i => x i + x (15 - i)) 7 ∧
    forwardDCT16 x 15 = forwardDCT8
      (fun i => (x i - x (15 - i)) / (2 * Real.cos (π * ((i : ℝ) + 1 / 2) / 16))) 7) ∧
    ((∀ i, i < 4 → forwardDCT8 x (2 * i)
      = forwardDCT4 (fun i => x i + x (7 - i)) i) ∧
    (∀ i, i < 3 → forwardDCT8 x (2 * i + 1)
      = forwardDCT4
          (fun i => (x i - x (7 - i)) / (2 * Real.cos (π * ((i : ℝ) + 1 / 2) / 8))) i
        + forwardDCT4
          (fun i => (x i - x (7 - i)) / (2 * Real.cos (π * ((i : ℝ) + 1 / 2) / 8))) (i + 1)) ∧
    forwardDCT8 x 6 = forwardDCT4 (fun i => x i + x (7 - i)) 3 ∧
    forwardDCT8 x 7 = forwardDCT4
      (fun i => (x i - x (7 - i)) / (2 * Real.cos (π * ((i : ℝ) + 1 / 2) / 8))) 3) :=
  ⟨⟨fun i hi => fdct64_even x i hi, fun i hi => fdct64_odd x i hi,
    fdct64_b62 x, fdct64_b63 x⟩,
   ⟨fun i hi => fdct32_even x i hi, fun i hi => fdct32_odd x i hi,
    fdct32_b30 x, fdct32_b31 x⟩,
   ⟨fun i hi => fdct16_even x i hi, fun i hi => fdct16_odd x i hi,
    fdct16_b14 x, fdct16_b15 x⟩,
   ⟨fun i hi => fdct8_even x i hi, fun i hi => fdct8_odd x i hi,
    fdct8_b6 x, fdct8_b7 x⟩⟩

/-- Witness for C5 at the constant-1 vector: size-64 even index 0 and odd
index 1, size-16 even index 0, size-8 odd index 1. -/
theorem forwardDCT64_level_structure_witness :
    forwardDCT64 (fun _ => (1 : ℝ)) 0 = forwardDCT32 (fun _ => (1 : ℝ) + 1) 0
    ∧ forwardDCT64 (fun _ => (1 : ℝ)) 1
      = forwardDCT32
          (fun i => ((1 : ℝ) - 1) / (2 * Real.cos (π * ((i : ℝ) + 1 / 2) / 64))) 0
        + forwardDCT32
          (fun i => ((1 : ℝ) - 1) / (2 * Real.cos (π * ((i : ℝ) + 1 / 2) / 64))) 1
    ∧ forwardDCT16 (fun _ => (1 : ℝ)) 0 = forwardDCT8 (fun _ => (1 : ℝ) + 1) 0
    ∧ forwardDCT8 (fun _ => (1 : ℝ)) 1
      = forwardDCT4
          (fun i => ((1 : ℝ) - 1) / (2 * Real.cos (π * ((i : ℝ) + 1 / 2) / 8))) 0
        + forwardDCT4
          (fun i => ((1 : ℝ) - 1) / (2 * Real.cos (π * ((i : ℝ) + 1 / 2) / 8))) 1 :=
  ⟨(forwardDCT64_level_structure (fun _ => 1)).1.1 0 (by norm_num),
   (forwardDCT64_level_structure (fun _ => 1)).1.2.1 0 (by norm_num),
   (forwardDCT64_level_structure (fun _ => 1)).2.2.1.1 0 (by norm_num),
   (forwardDCT64_level_structure (fun _ => 1)).2.2.2.2.1 0 (by norm_num)⟩

/-- Embedding of the `ImageHash` struct (imagehash.go lines 14-18): a bit
vector with its (rows, cols) shape. -/
structure ImageHash where
  hash : List Bool
  rows : ℕ
  cols : ℕ
deriving DecidableEq

/-- The nibble packed from bits `4i..4i+3` of the hash in `ToString`
(imagehash.go lines 61-68): bit j of the group is the high bit `1 <<< (3-j)`
of the nibble, out-of-range bits left as 0. -/
def nibbleVal (hash : List Bool) (i : ℕ) : ℕ :=
  (List.range 4).foldl
    (fun val j =>
      if i * 4 + j < hash.length ∧ hash.getD (i * 4 + j) false then
        val ||| (1 <<< (3 - j))
      else val) 0

/-- Nibble-to-character map of `ToString` (imagehash.go lines 69-73):
0-9 to '0'-'9', 10-15 to 'a'-'f'. -/
def nibbleToChar (val : ℕ) : Char :=
  if val < 10 then Char.ofNat ('0'.toNat + val) else Char.ofNat ('a'.toNat + (val - 10))

/-- Embedding of `ToString` (imagehash.go lines 45-77): empty hash encodes to
the empty string, otherwise `(len+3)/4` hex characters, 4 bits per character,
most significant bit first. -/
def ToString (h : List Bool) : List Char :=
  if h.length = 0 then []
  else (List.range ((h.length + 3) / 4)).map fun i => nibbleToChar (nibbleVal h i)

/-- The per-character branch of `HexToHash` (imagehash.go lines 92-101):
value of a hex digit, `none` for a character outside [0-9a-fA-F]. -/
def hexCharVal (c : Char) : Option ℕ :=
  if '0' ≤ c ∧ c ≤ '9' then some (c.toNat - '0'.toNat)
  else if 'a' ≤ c ∧ c ≤ 'f' then some (c.toNat - 'a'.toNat + 10)
  else if 'A' ≤ c ∧ c ≤ 'F' then some (c.toNat - 'A'.toNat + 10)
  else none

/-- The four bits unpacked from one hex digit in `HexToHash` (imagehash.go
lines 103-107), most significant first. -/
def hexBits (v : ℕ) : List Bool :=
  [v.testBit 3, v.testBit 2, v.testBit 1, v.testBit 0]

/-- Embedding of `HexToHash` (imagehash.go lines 80-115): fails on the first
invalid character, otherwise unpacks 4 bits per character and sets
`rows = cols = floor(sqrt(totalBits))` (`int(math.Sqrt(...))` on an exact
small float is the integer square root), without verifying squareness. -/
def HexToHash (hexStr : List Char) : Option ImageHash :=
  (hexStr.mapM hexCharVal).map fun vals =>
    { hash := vals.flatMap hexBits
      rows := Nat.sqrt (hexStr.length * 4)
      cols := Nat.sqrt (hexStr.length * 4) }

/-- Outcome of `Distance` (imagehash.go lines 30-42): the shape-mismatch
error, a run-time index-out-of-range panic (when the two `hash` slices have
the same shape but the second is shorter than the first), or the computed
count. -/
inductive DistResult where
  | shapeMismatch : DistResult
  | panic : DistResult
  | ok : ℕ → DistResult
deriving DecidableEq

/-- Embedding of `Distance` (imagehash.go lines 30-42): error if shapes
differ, otherwise count the indices of `a.hash` where the bits differ,
reading `b.hash` at the same indices (a panic if `b.hash` is shorter). -/
def Distance (a b : ImageHash) : DistResult :=
  if a.rows ≠ b.rows ∨ a.cols ≠ b.cols then .shapeMismatch
  else if b.hash.length < a.hash.length then .panic
  else .ok (((List.range a.hash.length).filter
    fun i => a.hash.getD i false != b.hash.getD i false).length)

/-- Embedding of `median` (imagehash.go lines 383-399): 0 on empty input,
otherwise sort ascending (`sort.Float64s`; any sort produces the same
ascending permutation, modelled by insertion sort) and take the middle
element (odd count) or the mean of the two central elements (even count). -/
noncomputable def median (data : List ℝ) : ℝ :=
  if data.length = 0 then 0
  else
    let sorted := List.insertionSort (· ≤ ·) data
    if data.length % 2 = 0 then
      (sorted.getD (data.length / 2 - 1) 0 + sorted.getD (data.length / 2) 0) / 2
    else sorted.getD (data.length / 2) 0

/-- Embedding of `medianFast64` (imagehash.go lines 402-415): sort the
64-element buffer and average the two central elements; delegates to `median`
for any other length. -/
noncomputable def medianFast64 (data : List ℝ) : ℝ :=
  if data.length ≠ 64 then median data
  else
    let sorted := List.insertionSort (· ≤ ·) data
    (sorted.getD 31 0 + sorted.getD 32 0) / 2

lemma hexCharVal_nibbleToChar : ∀ v < 16, hexCharVal (nibbleToChar v) = some v := by
  decide

lemma nibbleVal_lt (h : List Bool) (i : ℕ) : nibbleVal h i < 16 := by
  simp only [nibbleVal, show List.range 4 = [0, 1, 2, 3] from rfl,
    List.foldl_cons, List.foldl_nil]
  split_ifs <;> decide

lemma hexBits_nibbleVal (h : List Bool) (i : ℕ) :
    hexBits (nibbleVal h i) = [h.getD (i * 4) false, h.getD (i * 4 + 1) false,
      h.getD (i * 4 + 2) false, h.getD (i * 4 + 3) false] := by
  have hcond : ∀ j : ℕ, (i * 4 + j < h.length ∧ h.getD (i * 4 + j) false = true)
      ↔ h.getD (i * 4 + j) false = true := by
    intro j
    constructor
    · exact fun hj => hj.2
    · intro hb
      refine ⟨?_, hb⟩
      by_contra hlt
      push_neg at hlt
      rw [List.getD_eq_default _ _ hlt] at hb
      exact Bool.false_ne_true hb
  simp only [nibbleVal, show List.range 4 = [0, 1, 2, 3] from rfl,
    List.foldl_cons, List.foldl_nil, hcond, Nat.add_zero]
  rcases Bool.eq_false_or_eq_true (h.getD (i * 4) false) with hb0 | hb0 <;>
    rcases Bool.eq_false_or_eq_true (h.getD (i * 4 + 1) false) with hb1 | hb1 <;>
    rcases Bool.eq_false_or_eq_true (h.getD (i * 4 + 2) false) with hb2 | hb2 <;>
    rcases Bool.eq_false_or_eq_true (h.getD (i * 4 + 3) false) with hb3 | hb3 <;>
    simp only [hb0, hb1, hb2, hb3, hexBits] <;> decide

lemma flatMap_hexBits_nibbleVal (h : List Bool) (m : ℕ) :
    ((List.range m).map fun i => nibbleVal h i).flatMap hexBits
      = (List.range (m * 4)).map fun idx => h.getD idx false := by
  induction m with
  | zero => simp
  | succ n ih =>
    rw [List.range_succ, List.map_append, List.flatMap_append, ih,
      show (n + 1) * 4 = n * 4 + 4 by ring, List.range_add]
    simp [hexBits_nibbleVal, List.map_map, show List.range 4 = [0, 1, 2, 3] from rfl,
      Function.comp]

lemma map_getD_range (l : List Bool) :
    (List.range l.length).map (fun i => l.getD i false) = l := by
  refine List.ext_getElem (by simp) fun i h1 h2 => ?_
  simp [List.getElem?_eq_getElem h2]

lemma mapM_map_nibbleToChar (l : List ℕ) (hl : ∀ v ∈ l, v < 16) :
    (l.map nibbleToChar).mapM hexCharVal = some l := by
  induction l with
  | nil => rfl
  | cons v t ih =>
    rw [List.map_cons, List.mapM_cons, hexCharVal_nibbleToChar v (hl v (by simp)),
      ih (fun w hw => hl w (by simp [hw]))]
    rfl

lemma ToString_eq (h : List Bool) :
    ToString h = (List.range ((h.length + 3) / 4)).map
      fun i => nibbleToChar (nibbleVal h i) := by
  by_cases h0 : h.length = 0
  · simp [ToString, h0]
  · simp [ToString, h0]

lemma HexToHash_ToString (fp : List Bool) (m : ℕ) (hm : fp.length = 4 * m) :
    HexToHash (ToString fp) = some ⟨fp, Nat.sqrt (m * 4), Nat.sqrt (m * 4)⟩ := by
  have hlen4 : (fp.length + 3) / 4 = m := by omega
  rw [ToString_eq, hlen4]
  rw [show ((List.range m).map fun i => nibbleToChar (nibbleVal fp i))
      = ((List.range m).map fun i => nibbleVal fp i).map nibbleToChar by
    simp [List.map_map, Function.comp]]
  have hvalid : ∀ v ∈ (List.range m).map fun i => nibbleVal fp i, v < 16 := by
    intro v hv
    obtain ⟨i, _, rfl⟩ := List.mem_map.mp hv
    exact nibbleVal_lt fp i
  rw [HexToHash, mapM_map_nibbleToChar _ hvalid]
  simp only [Option.map_some']
  congr 1
  have hhash : ((List.range m).map fun i => nibbleVal fp i).flatMap hexBits = fp := by
    rw [flatMap_hexBits_nibbleVal, show m * 4 = fp.length by omega, map_getD_range]
  have hlen : (((List.range m).map fun i => nibbleVal fp i).map nibbleToChar).length = m := by
    simp
  rw [hlen, hhash]

/-- C2 counterexample: `[false]` has perfect-square length 1, but decoding its
hex encoding gives the 4-bit vector `[false, false, false, false]`, not
`[false]`. -/
theorem decode_encode_counterexample :
    [false].length = 1 * 1
    ∧ (HexToHash (ToString [false])).map ImageHash.hash ≠ some [false] := by
  decide

/-- C2 (amended): for every bit vector whose length is the square of an even
number, decoding the hex encoding reproduces exactly the same bit sequence. -/
theorem decode_encode_id (fp : List Bool) (k : ℕ)
    (hlen : fp.length = 2 * k * (2 * k)) :
    ∃ h : ImageHash, HexToHash (ToString fp) = some h ∧ h.hash = fp := by
  have hm : fp.length = 4 * (k * k) := by rw [hlen]; ring
  exact ⟨_, HexToHash_ToString fp (k * k) hm, rfl⟩

/-- Witness for the amended C2 at `[true, false, true, false]`, length 4 = 2². -/
theorem decode_encode_id_witness :
    ∃ h : ImageHash, HexToHash (ToString [true, false, true, false]) = some h
      ∧ h.hash = [true, false, true, false] :=
  decode_encode_id [true, false, true, false] 1 (by decide)

lemma hexCharVal_eq_none (c : Char) :
    hexCharVal c = none ↔ ¬(('0' ≤ c ∧ c ≤ '9') ∨ ('a' ≤ c ∧ c ≤ 'f')
      ∨ ('A' ≤ c ∧ c ≤ 'F')) := by
  simp only [hexCharVal]
  split_ifs with h1 h2 h3 <;> simp_all

lemma mapM_hexCharVal_eq_none (s : List Char) :
    s.mapM hexCharVal = none ↔ ∃ c ∈ s, hexCharVal c = none := by
  induction s with
  | nil => decide
  | cons c t ih =>
    rw [List.mapM_cons]
    cases hc : hexCharVal c with
    | none =>
      constructor
      · exact fun _ => ⟨c, by simp, hc⟩
      · intro _
        rfl
    | some v =>
      cases ht : t.mapM hexCharVal with
      | none =>
        constructor
        · intro _
          obtain ⟨d, hmem, hnone⟩ := ih.mp ht
          exact ⟨d, by simp [hmem], hnone⟩
        · intro _
          rfl
      | some vs =>
        constructor
        · intro hcontra
          exact Option.noConfusion (show some (v :: vs) = none from hcontra)
        · rintro ⟨d, hmem, hnone⟩
          rcases List.mem_cons.mp hmem with rfl | hmem2
          · rw [hnone] at hc
            exact Option.noConfusion hc
          · rw [ih.mpr ⟨d, hmem2, hnone⟩] at ht
            exact Option.noConfusion ht

/-- C9: `HexToHash` fails exactly when the input contains a character outside
[0-9a-fA-F]; on a string of only such characters it returns a fingerprint. -/
theorem HexToHash_err_iff (s : List Char) :
    (HexToHash s = none
      ↔ ∃ c ∈ s, ¬(('0' ≤ c ∧ c ≤ '9') ∨ ('a' ≤ c ∧ c ≤ 'f') ∨ ('A' ≤ c ∧ c ≤ 'F'))) ∧
    ((∀ c ∈ s, ('0' ≤ c ∧ c ≤ '9') ∨ ('a' ≤ c ∧ c ≤ 'f') ∨ ('A' ≤ c ∧ c ≤ 'F')) →
      ∃ h, HexToHash s = some h) := by
  have hbase : HexToHash s = none ↔ s.mapM hexCharVal = none := by
    simp [HexToHash, Option.map_eq_none']
  constructor
  · rw [hbase, mapM_hexCharVal_eq_none]
    exact exists_congr fun c => and_congr_right fun _ => hexCharVal_eq_none c
  · intro hall
    cases hm : s.mapM hexCharVal with
    | none =>
      obtain ⟨c, hcs, hcv⟩ := (mapM_hexCharVal_eq_none s).mp hm
      exact absurd (hall c hcs) ((hexCharVal_eq_none c).mp hcv)
    | some vals => exact ⟨_, by rw [HexToHash, hm]; rfl⟩

/-- Witness for C9: the string "g" fails, the string "0f" succeeds. -/
theorem HexToHash_err_iff_witness :
    HexToHash ['g'] = none ∧ ∃ h, HexToHash ['0', 'f'] = some h :=
  ⟨(HexToHash_err_iff ['g']).1.mpr ⟨'g', by decide, by decide⟩,
   (HexToHash_err_iff ['0', 'f']).2 (by decide)⟩

/-- C7: the median helper sorts ascending and takes the middle element for an
odd count, the arithmetic mean of the two central elements for an even count;
`medianFast64` computes the same function as `median`; in particular
`median [1,2,3,4] = 2.5` and `median [1,2,3] = 2`. -/
theorem median_spec :
    (∀ l : List ℝ, l ≠ [] → ∃ s : List ℝ, s.Perm l ∧ s.Sorted (· ≤ ·) ∧
      median l = (if l.length % 2 = 0
        then (s.getD (l.length / 2 - 1) 0 + s.getD (l.length / 2) 0) / 2
        else s.getD (l.length / 2) 0)) ∧
    (∀ l : List ℝ, medianFast64 l = median l) ∧
    median [1, 2, 3, 4] = 2.5 ∧ median [1, 2, 3] = 2 := by
  refine ⟨?_, ?_, ?_, ?_⟩
  · intro l hl
    refine ⟨List.insertionSort (· ≤ ·) l, List.perm_insertionSort _ l,
      List.sorted_insertionSort _ l, ?_⟩
    simp only [median]
    rw [if_neg fun h => hl (List.length_eq_zero.mp h)]
  · intro l
    by_cases h64 : l.length = 64
    · simp only [medianFast64, median, h64]
      norm_num
    · rw [medianFast64, if_pos h64]
  · norm_num [median, List.insertionSort, List.orderedInsert]
  · norm_num [median, List.insertionSort, List.orderedInsert]

/-- Witness for C7: the general clause applied to the concrete list [1,2,3]. -/
theorem median_spec_witness :
    ∃ s : List ℝ, s.Perm [1, 2, 3] ∧ s.Sorted (· ≤ ·) ∧
      median [1, 2, 3] = (if ([1, 2, 3] : List ℝ).length % 2 = 0
        then (s.getD (([1, 2, 3] : List ℝ).length / 2 - 1) 0
          + s.getD (([1, 2, 3] : List ℝ).length / 2) 0) / 2
        else s.getD (([1, 2, 3] : List ℝ).length / 2) 0) :=
  median_spec.1 [1, 2, 3] (by simp)

lemma length_filter_range_getD (as bs : List Bool) (h : as.length = bs.length) :
    ((List.range as.length).filter fun i => as.getD i false != bs.getD i false).length
      = ((as.zip bs).filter fun p => p.1 != p.2).length := by
  induction as generalizing bs with
  | nil => simp
  | cons x xt ih =>
    cases bs with
    | nil => simp at h
    | cons y yt =>
      have h' : xt.length = yt.length := by simpa using h
      have hpred : ((fun i => (x :: xt).getD i false != (y :: yt).getD i false) ∘ Nat.succ)
          = fun i => xt.getD i false != yt.getD i false := by
        funext i
        simp [List.getD_cons_succ]
      rw [List.length_cons, List.range_succ_eq_map, List.filter_cons,
        List.zip_cons_cons, List.filter_cons, List.filter_map, hpred]
      dsimp only [List.getD_cons_zero]
      by_cases hxy : (x != y) = true
      · rw [if_pos hxy, if_pos hxy, List.length_cons, List.length_cons,
          List.length_map, ih yt h']
      · rw [if_neg hxy, if_neg hxy, List.length_map, ih yt h']

/-- C4 counterexample: the fingerprints decoded from "00" and "ff" have equal
shapes (2, 2), and `Distance` returns the numeric result 8, outside
[0, rows*cols] = [0, 4]. -/
theorem Distance_claim_counterexample :
    ((HexToHash ['0', '0']).bind fun a => (HexToHash ['f', 'f']).map fun b => Distance a b)
      = some (DistResult.ok 8)
    ∧ (HexToHash ['0', '0']).map (fun a => a.rows * a.cols) = some 4
    ∧ ¬(8 : ℕ) ≤ 4 := by
  have h8 : Nat.sqrt 8 = 2 := (Nat.eq_sqrt.mpr (by norm_num)).symm
  have e0 : HexToHash ['0', '0']
      = some ⟨[false, false, false, false, false, false, false, false], 2, 2⟩ := by
    rw [HexToHash, (by decide : ['0', '0'].mapM hexCharVal = some [0, 0])]
    simp only [Option.map_some']
    rw [show (['0', '0'] : List Char).length * 4 = 8 from rfl, h8]
    decide
  have ef : HexToHash ['f', 'f']
      = some ⟨[true, true, true, true, true, true, true, true], 2, 2⟩ := by
    rw [HexToHash, (by decide : ['f', 'f'].mapM hexCharVal = some [15, 15])]
    simp only [Option.map_some']
    rw [show (['f', 'f'] : List Char).length * 4 = 8 from rfl, h8]
    decide
  rw [e0, ef]
  decide

/-- C4 (amended): for fingerprints satisfying the `length = rows*cols`
invariant, `Distance` returns the ShapeMismatch error exactly when the shapes
differ, and otherwise the Hamming distance — the number of positions where
the two bit sequences differ — which lies in [0, rows*cols]. -/
theorem Distance_spec (a b : ImageHash)
    (ha : a.hash.length = a.rows * a.cols) (hb : b.hash.length = b.rows * b.cols) :
    (Distance a b = DistResult.shapeMismatch ↔ (a.rows ≠ b.rows ∨ a.cols ≠ b.cols)) ∧
    (a.rows = b.rows → a.cols = b.cols →
      Distance a b = DistResult.ok (((a.hash.zip b.hash).filter fun p => p.1 != p.2).length)
      ∧ ((a.hash.zip b.hash).filter fun p => p.1 != p.2).length ≤ a.rows * a.cols) := by
  constructor
  · constructor
    · intro hd
      by_contra hno
      push_neg at hno
      rw [Distance, if_neg (by simp [hno.1, hno.2]),
        if_neg (by rw [ha, hb, hno.1, hno.2]; omega)] at hd
      exact DistResult.noConfusion hd
    · intro hne
      rw [Distance, if_pos hne]
  · intro hr hc
    have hlen : a.hash.length = b.hash.length := by rw [ha, hb, hr, hc]
    constructor
    · rw [Distance, if_neg (by simp [hr, hc]), if_neg (by omega),
        length_filter_range_getD a.hash b.hash hlen]
    · calc ((a.hash.zip b.hash).filter fun p => p.1 != p.2).length
          ≤ (a.hash.zip b.hash).length := List.length_filter_le _ _
        _ ≤ a.hash.length := by rw [List.length_zip]; omega
        _ = a.rows * a.cols := ha

/-- Witness for the amended C4 on two concrete valid 1×2 fingerprints. -/
theorem Distance_spec_witness :
    Distance ⟨[true, false], 1, 2⟩ ⟨[false, false], 1, 2⟩
      = DistResult.ok ((([true, false].zip [false, false]).filter
          fun p => p.1 != p.2).length) :=
  ((Distance_spec ⟨[true, false], 1, 2⟩ ⟨[false, false], 1, 2⟩ rfl rfl).2 rfl rfl).1

lemma mapM_hexCharVal_length (s : List Char) (l : List ℕ)
    (h : s.mapM hexCharVal = some l) : l.length = s.length := by
  induction s generalizing l with
  | nil =>
    cases h
    rfl
  | cons c t ih =>
    rw [List.mapM_cons] at h
    cases hc : hexCharVal c with
    | none =>
      rw [hc] at h
      exact Option.noConfusion h
    | some v =>
      rw [hc] at h
      cases ht : t.mapM hexCharVal with
      | none =>
        rw [ht] at h
        exact Option.noConfusion h
      | some tl =>
        rw [ht] at h
        cases h
        simp [ih tl ht]

lemma flatMap_hexBits_length (vals : List ℕ) :
    (vals.flatMap hexBits).length = vals.length * 4 := by
  induction vals with
  | nil => rfl
  | cons v t ih =>
    simp only [List.flatMap_cons, List.length_append, List.length_cons, ih, hexBits]
    simp
    omega

/-- Shape of every fingerprint `HexToHash` returns: `4·len` bits but
`rows = cols = ⌊√(4·len)⌋`, whether or not `4·len` is a square. -/
lemma HexToHash_shape (s : List Char) (h : ImageHash) (hs : HexToHash s = some h) :
    h.hash.length = s.length * 4 ∧ h.rows = Nat.sqrt (s.length * 4)
      ∧ h.cols = Nat.sqrt (s.length * 4) := by
  rw [HexToHash] at hs
  cases hm : s.mapM hexCharVal with
  | none =>
    rw [hm] at hs
    exact Option.noConfusion hs
  | some vals =>
    rw [hm] at hs
    simp only [Option.map_some'] at hs
    cases hs
    refine ⟨?_, rfl, rfl⟩
    rw [flatMap_hexBits_length, mapM_hexCharVal_length s vals hm]

/-- The external pixel normalizer (imaging.Resize composed with
ToGrayscaleFast — out-of-scope collaborators, specified by contract in the
spec): `img w h y x` is the grayscale byte of the image resized to w×h, at
row y and column x. -/
abbrev Img : Type := ℕ → ℕ → ℕ → ℕ → ℕ

/-- Embedding of `AverageHash` (imagehash.go lines 118-153): default the size,
resize to hashSize×hashSize, average all samples, threshold strictly above
the mean.  Go `int` arguments are modelled by `ℤ`. -/
noncomputable def AverageHash (img : Img) (hashSize0 : ℤ) : ImageHash :=
  let hashSize : ℕ := (if hashSize0 < 2 then 8 else hashSize0).toNat
  let pix : ℕ → ℕ → ℕ := img hashSize hashSize
  let sum : ℕ := ((List.range hashSize).map fun y =>
    ((List.range hashSize).map fun x => pix y x).sum).sum
  let avg : ℝ := (sum : ℝ) / ((hashSize * hashSize : ℕ) : ℝ)
  { hash := (List.range (hashSize * hashSize)).map
      fun idx => decide ((pix (idx / hashSize) (idx % hashSize) : ℝ) > avg)
    rows := hashSize
    cols := hashSize }

/-- Embedding of `DifferenceHash` (imagehash.go lines 156-186): resize to
(hashSize+1)×hashSize and set `bit[y][x] = pixel[y][x+1] > pixel[y][x]`. -/
def DifferenceHash (img : Img) (hashSize0 : ℤ) : ImageHash :=
  let hashSize : ℕ := (if hashSize0 < 2 then 8 else hashSize0).toNat
  let pix : ℕ → ℕ → ℕ := img (hashSize + 1) hashSize
  { hash := (List.range (hashSize * hashSize)).map
      fun idx => decide (pix (idx / hashSize) (idx % hashSize + 1)
        > pix (idx / hashSize) (idx % hashSize))
    rows := hashSize
    cols := hashSize }

/-- Embedding of `DifferenceHashVertical` (imagehash.go lines 189-218). -/
def DifferenceHashVertical (img : Img) (hashSize0 : ℤ) : ImageHash :=
  let hashSize : ℕ := (if hashSize0 < 2 then 8 else hashSize0).toNat
  let pix : ℕ → ℕ → ℕ := img hashSize (hashSize + 1)
  { hash := (List.range (hashSize * hashSize)).map
      fun idx => decide (pix (idx / hashSize + 1) (idx % hashSize)
        > pix (idx / hashSize) (idx % hashSize))
    rows := hashSize
    cols := hashSize }

/-- Embedding of `perceptualHashFast64` (imagehash.go lines 300-339). -/
noncomputable def perceptualHashFast64 (img : Img) : ImageHash :=
  let pix : ℕ → ℕ → ℕ := img 64 64
  let input : ℕ → ℝ := fun idx => (pix (idx / 64) (idx % 64) : ℝ)
  let dctLowFreq : List ℝ := (List.range 64).map (DCT2DFast64 input)
  let med := medianFast64 dctLowFreq
  { hash := dctLowFreq.map fun v => decide (v > med), rows := 8, cols := 8 }

/-- Embedding of `perceptualHashFast32` (imagehash.go lines 342-381). -/
noncomputable def perceptualHashFast32 (img : Img) : ImageHash :=
  let pix : ℕ → ℕ → ℕ := img 32 32
  let input : ℕ → ℝ := fun idx => (pix (idx / 32) (idx % 32) : ℝ)
  let dctLowFreq : List ℝ := (List.range 64).map fun idx => DCT2DFast32 input 8 idx
  let med := median dctLowFreq
  { hash := dctLowFreq.map fun v => decide (v > med), rows := 8, cols := 8 }

/-- Embedding of `PerceptualHash` (imagehash.go lines 237-297): default the
arguments, dispatch to the fast 32/64 paths for the default geometries, else
resize to imgSize×imgSize, run the general `DCT2D`, keep the top-left
hashSize×hashSize block and threshold strictly above its median. -/
noncomputable def PerceptualHash (img : Img) (hashSize0 highfreqFactor0 : ℤ) : ImageHash :=
  let hashSize : ℕ := (if hashSize0 < 2 then 8 else hashSize0).toNat
  let highfreqFactor : ℕ := (if highfreqFactor0 < 1 then 4 else highfreqFactor0).toNat
  let imgSize := hashSize * highfreqFactor
  if imgSize = 32 ∧ hashSize = 8 then perceptualHashFast32 img
  else if imgSize = 64 ∧ hashSize = 8 then perceptualHashFast64 img
  else
    let pix : ℕ → ℕ → ℕ := img imgSize imgSize
    let dct := DCT2D imgSize imgSize fun y x => (pix y x : ℝ)
    let dctLowFreq : List ℝ := (List.range (hashSize * hashSize)).map
      fun idx => dct (idx / hashSize) (idx % hashSize)
    let med := median dctLowFreq
    { hash := dctLowFreq.map fun v => decide (v > med)
      rows := hashSize
      cols := hashSize }

lemma HexToHash_single_zero :
    HexToHash ['0'] = some ⟨[false, false, false, false], 2, 2⟩ := by
  have h4 : Nat.sqrt 4 = 2 := Nat.sqrt_eq 2
  rw [HexToHash, (by decide : ['0'].mapM hexCharVal = some [0])]
  simp only [Option.map_some']
  rw [show (['0'] : List Char).length * 4 = 4 from rfl, h4]
  decide

/-- C3 counterexample: the fingerprint decoded from "00" has 8 bits but
rows = cols = 2, so its length is not rows*cols. -/
theorem fingerprint_invariant_counterexample :
    (HexToHash ['0', '0']).map (fun h => (h.hash.length, h.rows * h.cols)) = some (8, 4)
    ∧ (8 : ℕ) ≠ 4 := by
  have h8 : Nat.sqrt 8 = 2 := (Nat.eq_sqrt.mpr (by norm_num)).symm
  have e0 : HexToHash ['0', '0']
      = some ⟨[false, false, false, false, false, false, false, false], 2, 2⟩ := by
    rw [HexToHash, (by decide : ['0', '0'].mapM hexCharVal = some [0, 0])]
    simp only [Option.map_some']
    rw [show (['0', '0'] : List Char).length * 4 = 8 from rfl, h8]
    decide
  rw [e0]
  decide

/-- C3 (amended): every fingerprint built by the four hash computations has
`length = rows * cols`; a fingerprint returned by `HexToHash` satisfies the
invariant whenever the total bit count `4·len(hex)` is a perfect square (it
is violated otherwise, as the counterexample shows). -/
theorem fingerprint_invariant (img : Img) (hs hf : ℤ) :
    ((AverageHash img hs).hash.length
      = (AverageHash img hs).rows * (AverageHash img hs).cols) ∧
    ((DifferenceHash img hs).hash.length
      = (DifferenceHash img hs).rows * (DifferenceHash img hs).cols) ∧
    ((DifferenceHashVertical img hs).hash.length
      = (DifferenceHashVertical img hs).rows * (DifferenceHashVertical img hs).cols) ∧
    ((PerceptualHash img hs hf).hash.length
      = (PerceptualHash img hs hf).rows * (PerceptualHash img hs hf).cols) ∧
    (∀ (s : List Char) (h : ImageHash), HexToHash s = some h →
      (∃ k, s.length * 4 = k * k) → h.hash.length = h.rows * h.cols) := by
  refine ⟨by simp [AverageHash], by simp [DifferenceHash], by simp [DifferenceHashVertical],
    ?_, ?_⟩
  · simp only [PerceptualHash]
    split_ifs <;> simp [perceptualHashFast32, perceptualHashFast64]
  · intro s h hsome ⟨k, hk⟩
    obtain ⟨hlen, hrows, hcols⟩ := HexToHash_shape s h hsome
    rw [hlen, hrows, hcols, hk, Nat.sqrt_eq]

/-- Witness for the amended C3: the constant-0 image at hashSize 0, and the
decode clause on the one-character string "0" (4 bits, a perfect square). -/
theorem fingerprint_invariant_witness :
    ((AverageHash (fun _ _ _ _ => 0) 0).hash.length
      = (AverageHash (fun _ _ _ _ => 0) 0).rows * (AverageHash (fun _ _ _ _ => 0) 0).cols)
    ∧ (⟨[false, false, false, false], 2, 2⟩ : ImageHash).hash.length
      = (⟨[false, false, false, false], 2, 2⟩ : ImageHash).rows
        * (⟨[false, false, false, false], 2, 2⟩ : ImageHash).cols :=
  ⟨(fingerprint_invariant (fun _ _ _ _ => 0) 0 0).1,
   (fingerprint_invariant (fun _ _ _ _ => 0) 0 0).2.2.2.2 ['0'] _
     HexToHash_single_zero ⟨2, by norm_num⟩⟩

/-- C8: with the effective size n = hashSize (hashSize ≥ 2 so no default is
substituted), the horizontal difference hash samples the image resized to
(n+1)×n and sets `bit[i,j] = sample[i][j+1] > sample[i][j]` (strict), in a
bit vector of length n·n. -/
theorem differenceHash_spec (img : Img) (hashSize : ℤ) (h2 : 2 ≤ hashSize) :
    (DifferenceHash img hashSize).hash.length = hashSize.toNat * hashSize.toNat
    ∧ (DifferenceHash img hashSize).rows = hashSize.toNat
    ∧ (DifferenceHash img hashSize).cols = hashSize.toNat
    ∧ ∀ i j, i < hashSize.toNat → j < hashSize.toNat →
      (DifferenceHash img hashSize).hash.getD (i * hashSize.toNat + j) false
        = decide (img (hashSize.toNat + 1) hashSize.toNat i (j + 1)
            > img (hashSize.toNat + 1) hashSize.toNat i j) := by
  have hn : ¬(hashSize < 2) := by omega
  simp only [DifferenceHash, if_neg hn]
  refine ⟨by simp, by simp, by simp, ?_⟩
  intro i j hi hj
  set n := hashSize.toNat with hdefn
  have hnpos : 0 < n := by omega
  have hidx : i * n + j < n * n := by
    calc i * n + j < i * n + n := by omega
      _ = (i + 1) * n := by ring
      _ ≤ n * n := Nat.mul_le_mul_right n (by omega)
  rw [List.getD_eq_getElem _ _ (by simpa using hidx)]
  rw [List.getElem_map, List.getElem_range]
  rw [show i * n + j = n * i + j by ring, Nat.mul_add_div hnpos, Nat.mul_add_mod,
    Nat.div_eq_of_lt hj, Nat.mod_eq_of_lt hj]
  norm_num

/-- Witness for C8 at the constant-0 image, hashSize 2, position (0, 0). -/
theorem differenceHash_spec_witness :
    (DifferenceHash (fun _ _ _ _ => 0) 2).rows = (2 : ℤ).toNat
    ∧ (DifferenceHash (fun _ _ _ _ => 0) 2).hash.getD (0 * (2 : ℤ).toNat + 0) false
      = decide (((fun _ _ _ _ => 0) : Img) ((2 : ℤ).toNat + 1) (2 : ℤ).toNat 0 (0 + 1)
          > ((fun _ _ _ _ => 0) : Img) ((2 : ℤ).toNat + 1) (2 : ℤ).toNat 0 0) :=
  ⟨(differenceHash_spec (fun _ _ _ _ => 0) 2 (by norm_num)).2.1,
   (differenceHash_spec (fun _ _ _ _ => 0) 2 (by norm_num)).2.2.2 0 0
     (by norm_num) (by norm_num)⟩

/-- C10: a hashSize below 2 is silently replaced by 8 in each of the four
public hash computations, and a highfreqFactor below 1 is silently replaced
by 4 in PerceptualHash; the result is identical to the call with the default
value and no error is reported (the functions are total). -/
theorem default_args_spec (img : Img) (hs hf : ℤ) :
    (hs < 2 → AverageHash img hs = AverageHash img 8) ∧
    (hs < 2 → DifferenceHash img hs = DifferenceHash img 8) ∧
    (hs < 2 → DifferenceHashVertical img hs = DifferenceHashVertical img 8) ∧
    (hs < 2 → PerceptualHash img hs hf = PerceptualHash img 8 hf) ∧
    (hf < 1 → PerceptualHash img hs hf = PerceptualHash img hs 4) := by
  have h8 : ¬((8 : ℤ) < 2) := by norm_num
  have h4 : ¬((4 : ℤ) < 1) := by norm_num
  refine ⟨fun h => ?_, fun h => ?_, fun h => ?_, fun h => ?_, fun h => ?_⟩
  · simp only [AverageHash, if_pos h, if_neg h8]
  · simp only [DifferenceHash, if_pos h, if_neg h8]
  · simp only [DifferenceHashVertical, if_pos h, if_neg h8]
  · simp only [PerceptualHash, if_pos h, if_neg h8]
  · simp only [PerceptualHash, if_pos h, if_neg h4]

/-- Witness for C10 at the constant-0 image, hashSize 0 and highfreqFactor 0. -/
theorem default_args_spec_witness :
    AverageHash (fun _ _ _ _ => 0) 0 = AverageHash (fun _ _ _ _ => 0) 8
    ∧ PerceptualHash (fun _ _ _ _ => 0) 8 0 = PerceptualHash (fun _ _ _ _ => 0) 8 4 :=
  ⟨(default_args_spec (fun _ _ _ _ => 0) 0 0).1 (by norm_num),
   (default_args_spec (fun _ _ _ _ => 0) 8 0).2.2.2.2 (by norm_num)⟩

end ImageHashGo
